import Mathlib

/-!
Shallow embedding of the `pool` Go package (files `pool.go`, `conn.go`,
`channel.go`): a bounded pool of RPC-able connections stored in a buffered
channel, with a decorator (`PoolRconn`) that redirects `Close` to a return
into the pool.

Modelling choices:
* A Go `RpcAble` interface value is `Option Conn`: `none` is the nil
  interface, `some c` a concrete connection.  A connection carries an id
  and the error its underlying `Close()` returns.
* The buffered channel `chan RpcAble` of capacity `maxCap` is a FIFO list
  together with the capacity; the field being the Go nil channel (after
  `Close`) is `Option`.  A non-blocking send succeeds iff the buffer holds
  fewer than `cap` elements; a non-blocking receive succeeds iff the buffer
  is non-empty.
* The factory closure `func() (RpcAble, error)` is a function from its
  invocation index (the pool state threads a call counter) to the pair
  (returned connection-or-nil, returned error-or-nil).
* Calls to an underlying connection `Close()` are recorded in a log
  (a `List Conn`, in invocation order); invoking `Close` on a nil
  interface value, which panics in Go, is recorded as a `Bool` flag.
* Operations are sequential (the mutex makes each one atomic); state is
  threaded explicitly.
-/

namespace Pool

/-- Errors produced by the package or by external collaborators.
`closed` is `ErrClosed` (pool.go), `nilRconn` the "rconn is nil. rejecting"
error of `put`, `invalidCapacity` the "invalid capacity settings" error of
`NewChannelPool`, `factoryFill e` the `fmt.Errorf` wrapping of a factory
error during the initial fill, and `custom n` stands for arbitrary errors
returned by a factory or by a connection's own `Close`. -/
inductive Err where
  | closed
  | nilRconn
  | invalidCapacity
  | factoryFill (e : Err)
  | custom (n : Nat)
deriving DecidableEq, Repr

/-- A concrete (non-nil) RPC-able connection: an identity and the result
its underlying `Close()` returns (`none` = nil error). -/
structure Conn where
  id : Nat
  closeErr : Option Err
deriving DecidableEq, Repr

/-- A Go `RpcAble` interface value: nil or a concrete connection. -/
abbrev RpcAble := Option Conn

/-- The `Factory` type of channel.go, `func() (RpcAble, error)`, as a
function of the invocation index: result is (connection-or-nil,
error-or-nil). -/
abbrev Factory := Nat → RpcAble × Option Err

/-- State of a `channelPool` (channel.go): the buffered channel `rconns`
(`none` once niled by `Close`, otherwise its FIFO contents), the channel
capacity fixed at `make(chan RpcAble, maxCap)`, the `factory` field
(`none` once niled by `Close`), and the number of factory invocations made
so far (threads the closure through the model). -/
structure PoolState where
  rconns : Option (List RpcAble)
  cap : Nat
  factory : Option Factory
  calls : Nat

/-- Draining a closed channel and closing every received value, as in the
loop of `channelPool.Close`: returns the connections whose underlying
`Close` was invoked, in order, and whether a nil interface value was
reached (in Go, `rconn.Close()` on nil panics and nothing after it runs). -/
def drainClose : List RpcAble → List Conn × Bool
  | [] => ([], false)
  | Option.none :: _ => ([], true)
  | Option.some c :: rest =>
    let r := drainClose rest
    (c :: r.1, r.2)

/-- The initial-fill loop of `NewChannelPool`: invoke the factory `n`
times starting at invocation index `i`, appending each returned value to
the buffer; on a factory error, stop with the wrapped error and the buffer
as filled so far. -/
def fillPool (f : Factory) : Nat → Nat → List RpcAble →
    Except (Err × List RpcAble) (List RpcAble × Nat)
  | 0, i, buf => Except.ok (buf, i)
  | n + 1, i, buf =>
    let r := f i
    match r.2 with
    | Option.some e => Except.error (Err.factoryFill e, buf)
    | Option.none => fillPool f n (i + 1) (buf ++ [r.1])

/-- `NewChannelPool(initialCap, maxCap, factory)` (channel.go): rejects
invalid capacity settings, otherwise fills the buffer with `initialCap`
factory results; if a factory invocation fails, the pool is closed (the
connections created so far are drained and closed) and the wrapped error
is returned.  Result: the pool state or the error, plus the log of
underlying `Close` invocations and the panic flag of the drain. -/
def NewChannelPool (initialCap maxCap : Int) (factory : Factory) :
    Except Err PoolState × List Conn × Bool :=
  if initialCap < 0 ∨ maxCap ≤ 0 ∨ initialCap > maxCap then
    (Except.error Err.invalidCapacity, [], false)
  else
    match fillPool factory initialCap.toNat 0 [] with
    | Except.ok (buf, i) =>
      (Except.ok ⟨Option.some buf, maxCap.toNat, Option.some factory, i⟩,
       [], false)
    | Except.error (e, buf) =>
      let r := drainClose buf
      (Except.error e, r.1, r.2)

/-- The handle decorator `PoolRconn` (conn.go): the embedded `RpcAble`
(possibly nil) and the `unusable` flag.  The back-reference `c` to the
owning pool is the explicitly threaded `PoolState`. -/
structure PoolRconn where
  rpcAble : RpcAble
  unusable : Bool
deriving DecidableEq, Repr

/-- `channelPool.wrapRconn` (conn.go): wrap a raw `RpcAble` in a fresh
decorator with `unusable` unset. -/
def channelPool.wrapRconn (rconn : RpcAble) : PoolRconn :=
  ⟨rconn, false⟩

/-- Result of `channelPool.Get`: a wrapped handle, an error, or a Go
run-time panic (`c.factory()` with a nil factory field, unreachable from
states the constructor produces). -/
inductive GetRes where
  | ok (h : PoolRconn)
  | err (e : Err)
  | panic
deriving DecidableEq, Repr

/-- `channelPool.Get` (channel.go): nil channel means `ErrClosed`; a
non-blocking receive that yields a value returns it wrapped unless the
value is nil (then `ErrClosed`); an empty buffer invokes the factory once,
propagating its error unchanged, otherwise wrapping its result. -/
def channelPool.Get (s : PoolState) : GetRes × PoolState :=
  match s.rconns with
  | Option.none => (GetRes.err Err.closed, s)
  | Option.some buf =>
    match buf with
    | r :: rest =>
      ((match r with
        | Option.none => GetRes.err Err.closed
        | Option.some c => GetRes.ok (channelPool.wrapRconn (Option.some c))),
       { s with rconns := Option.some rest })
    | [] =>
      match s.factory with
      | Option.none => (GetRes.panic, s)
      | Option.some f =>
        let r := f s.calls
        ((match r.2 with
          | Option.some e => GetRes.err e
          | Option.none => GetRes.ok (channelPool.wrapRconn r.1)),
         { s with calls := s.calls + 1 })

/-- `channelPool.put` (channel.go): reject nil; on a nil channel close the
connection and return its close result; on a full buffer likewise;
otherwise insert at the back and return nil.  Result: (returned error,
new state, log of underlying `Close` invocations). -/
def channelPool.put (s : PoolState) (rconn : RpcAble) :
    Option Err × PoolState × List Conn :=
  match rconn with
  | Option.none => (Option.some Err.nilRconn, s, [])
  | Option.some c =>
    match s.rconns with
    | Option.none => (c.closeErr, s, [c])
    | Option.some buf =>
      if buf.length < s.cap then
        (Option.none, { s with rconns := Option.some (buf ++ [Option.some c]) },
         [])
      else
        (c.closeErr, s, [c])

/-- `channelPool.Close` (channel.go): capture and nil out `rconns` and
`factory`; if the captured channel was already nil, return; otherwise
close it and drain it, closing every received connection.  Result: (new
state, log of underlying `Close` invocations, panic flag of the drain). -/
def channelPool.Close (s : PoolState) : PoolState × List Conn × Bool :=
  match s.rconns with
  | Option.none =>
    ({ s with rconns := Option.none, factory := Option.none }, [], false)
  | Option.some buf =>
    let r := drainClose buf
    ({ s with rconns := Option.none, factory := Option.none }, r.1, r.2)

/-- `channelPool.Len` (channel.go): `len` of the channel, 0 for a nil
channel. -/
def channelPool.Len (s : PoolState) : Nat :=
  match s.rconns with
  | Option.none => 0
  | Option.some buf => buf.length

/-- `PoolRconn.Close` (conn.go): if marked unusable, invoke the real
underlying `Close` (or do nothing when no connection is wrapped);
otherwise delegate to the pool's `put`.  Result: (returned error, new
pool state, log of underlying `Close` invocations). -/
def PoolRconn.Close (p : PoolRconn) (s : PoolState) :
    Option Err × PoolState × List Conn :=
  if p.unusable then
    match p.rpcAble with
    | Option.some c => (c.closeErr, s, [c])
    | Option.none => (Option.none, s, [])
  else
    channelPool.put s p.rpcAble

/-- `PoolRconn.MarkUnusable` (conn.go): set the `unusable` flag. -/
def PoolRconn.MarkUnusable (p : PoolRconn) : PoolRconn :=
  { p with unusable := true }

/-- One pool-facing operation of a client history: a `Get`, a return of a
value through `put` (what a non-unusable handle `Close` does), or a store
`Close`.  An unusable handle `Close` does not touch the pool state. -/
inductive Op where
  | get
  | put (rconn : RpcAble)
  | close

/-- Run one operation, keeping only the state. -/
def runOp (s : PoolState) : Op → PoolState
  | Op.get => (channelPool.Get s).2
  | Op.put r => (channelPool.put s r).2.1
  | Op.close => (channelPool.Close s).1

/-- Run a sequence of operations from a state. -/
def runOps (s : PoolState) (ops : List Op) : PoolState :=
  ops.foldl runOp s

/-- The buffer-occupancy invariant: whenever the channel is non-nil, its
contents do not exceed the capacity. -/
def lenInv (s : PoolState) : Prop :=
  ∀ buf, s.rconns = Option.some buf → buf.length ≤ s.cap

/-- The no-nil-entry invariant: whenever the channel is non-nil, no nil
interface value sits in it. -/
def noNilInv (s : PoolState) : Prop :=
  ∀ buf, s.rconns = Option.some buf → Option.none ∉ buf

/-- A factory that never returns a nil connection together with a nil
error. -/
def goodFactory (f : Factory) : Prop :=
  ∀ n, (f n).2 = Option.none → (f n).1 ≠ Option.none

/-! Concrete fixtures used to evaluate the development on closed inputs. -/

/-- A connection whose underlying `Close` succeeds. -/
def cA : Conn := ⟨0, Option.none⟩

/-- A connection whose underlying `Close` fails with `custom 7`. -/
def cB : Conn := ⟨1, Option.some (Err.custom 7)⟩

/-- A factory that always succeeds, minting connection `100 + n` at its
`n`-th invocation. -/
def fOk : Factory := fun n => (Option.some ⟨100 + n, Option.none⟩, Option.none)

/-- An open pool with an empty buffer, capacity 2. -/
def sEmptyW : PoolState := ⟨Option.some [], 2, Option.some fOk, 0⟩

/-- An open pool holding `cA` then `cB`, capacity 5. -/
def sTwoW : PoolState :=
  ⟨Option.some [Option.some cA, Option.some cB], 5, Option.some fOk, 0⟩

/-- An open pool with an empty buffer, capacity 1. -/
def sCapOneW : PoolState := ⟨Option.some [], 1, Option.some fOk, 0⟩

/-- An open pool holding only `cA`, capacity 1 (a full buffer). -/
def sFullW : PoolState := ⟨Option.some [Option.some cA], 1, Option.some fOk, 0⟩

end Pool

namespace Pool

/-! Helper lemmas shared by the claim theorems. -/

theorem drainClose_no_nil (buf : List RpcAble) (hn : Option.none ∉ buf) :
    drainClose buf = (buf.reduceOption, false) := by
  induction buf with
  | nil => rfl
  | cons a rest ih =>
    cases a with
    | none => exact absurd (List.mem_cons_self _ _) hn
    | some c =>
      have hrest : Option.none ∉ rest := fun h => hn (List.mem_cons_of_mem _ h)
      simp [drainClose, ih hrest, List.reduceOption]

theorem count_reduceOption (c : Conn) (buf : List RpcAble) :
    buf.reduceOption.count c = buf.count (Option.some c) := by
  induction buf with
  | nil => rfl
  | cons a rest ih =>
    cases a <;> simp [List.reduceOption, List.count_cons] <;>
      simpa [List.reduceOption] using ih

theorem runOp_cap (s : PoolState) (op : Op) : (runOp s op).cap = s.cap := by
  obtain ⟨rc, cap, fac, calls⟩ := s
  cases op with
  | get =>
    cases rc with
    | none => rfl
    | some buf =>
      cases buf with
      | nil => cases fac <;> rfl
      | cons a rest => rfl
  | put r =>
    cases r with
    | none => rfl
    | some c =>
      cases rc with
      | none => rfl
      | some buf =>
        by_cases hlt : buf.length < cap <;> simp [runOp, channelPool.put, hlt]
  | close => cases rc <;> rfl

theorem runOps_cap (ops : List Op) : ∀ s, (runOps s ops).cap = s.cap := by
  induction ops with
  | nil => intro s; rfl
  | cons op rest ih =>
    intro s
    exact (ih (runOp s op)).trans (runOp_cap s op)

theorem lenInv_runOp (s : PoolState) (op : Op) (h : lenInv s) :
    lenInv (runOp s op) := by
  obtain ⟨rc, cap, fac, calls⟩ := s
  cases op with
  | get =>
    cases rc with
    | none => exact h
    | some buf =>
      cases buf with
      | nil =>
        cases fac with
        | none => exact h
        | some f =>
          intro b hb
          simp [runOp, channelPool.Get] at hb
          subst hb
          simp
      | cons a rest =>
        intro b hb
        simp [runOp, channelPool.Get] at hb ⊢
        subst hb
        have := h (a :: rest) rfl
        simp only [List.length_cons] at this
        omega
  | put r =>
    cases r with
    | none => exact h
    | some c =>
      cases rc with
      | none => exact h
      | some buf =>
        by_cases hlt : buf.length < cap
        · intro b hb
          simp [runOp, channelPool.put, hlt] at hb ⊢
          subst hb
          simp only [List.length_append, List.length_cons, List.length_nil]
          omega
        · intro b hb
          simp [runOp, channelPool.put, hlt] at hb ⊢
          subst hb
          exact h buf rfl
  | close =>
    cases rc <;> intro b hb <;> simp [runOp, channelPool.Close] at hb

theorem lenInv_runOps (ops : List Op) :
    ∀ s, lenInv s → lenInv (runOps s ops) := by
  induction ops with
  | nil => exact fun s h => h
  | cons op rest ih => exact fun s h => ih (runOp s op) (lenInv_runOp s op h)

theorem fillPool_ok_length (f : Factory) :
    ∀ (n i : Nat) (buf buf' : List RpcAble) (i' : Nat),
      fillPool f n i buf = Except.ok (buf', i') →
      buf'.length = buf.length + n := by
  intro n
  induction n with
  | zero =>
    intro i buf buf' i' h
    simp [fillPool] at h
    simp [← h.1]
  | succ n ih =>
    intro i buf buf' i' h
    rcases h2 : (f i).2 with _ | e
    · simp only [fillPool, h2] at h
      have := ih (i + 1) (buf ++ [(f i).1]) buf' i' h
      simp only [List.length_append, List.length_cons, List.length_nil] at this
      omega
    · simp only [fillPool, h2] at h
      exact Except.noConfusion h

theorem NewChannelPool_ok_inv (initialCap maxCap : Int) (f : Factory)
    (s0 : PoolState) (log : List Conn) (pn : Bool)
    (h : NewChannelPool initialCap maxCap f = (Except.ok s0, log, pn)) :
    (0 ≤ initialCap ∧ 0 < maxCap ∧ initialCap ≤ maxCap) ∧
    ∃ buf i, fillPool f initialCap.toNat 0 [] = Except.ok (buf, i) ∧
      s0 = ⟨Option.some buf, maxCap.toNat, Option.some f, i⟩ := by
  unfold NewChannelPool at h
  by_cases hc : initialCap < 0 ∨ maxCap ≤ 0 ∨ initialCap > maxCap
  · rw [if_pos hc] at h
    simp at h
  · rw [if_neg hc] at h
    push_neg at hc
    refine ⟨⟨hc.1, by omega, by omega⟩, ?_⟩
    rcases hfp : fillPool f initialCap.toNat 0 [] with ⟨e, buf⟩ | ⟨buf, i⟩
    · rw [hfp] at h
      simp at h
    · rw [hfp] at h
      simp only [Prod.mk.injEq] at h
      exact ⟨buf, i, rfl, (Except.ok.inj h.1).symm⟩

/-- C3: the first `Close()` on an open store (with a nil-free buffer, the
only buffers a well-behaved factory can produce): the buffer and factory
references are cleared, `Len` returns 0, the drain closes exactly the
idle connections in order without panicking, and each connection's
underlying `Close` is invoked exactly as many times as it sat in the
buffer (once, for a connection present once). -/
theorem Close_drains_and_clears (s : PoolState) (buf : List RpcAble)
    (hb : s.rconns = Option.some buf) (hn : Option.none ∉ buf) :
    channelPool.Close s =
      ({ s with rconns := Option.none, factory := Option.none },
       buf.reduceOption, false) ∧
    channelPool.Len (channelPool.Close s).1 = 0 ∧
    ∀ c : Conn,
      (channelPool.Close s).2.1.count c = buf.count (Option.some c) := by
  obtain ⟨rc, cap, fac, calls⟩ := s
  simp only at hb
  subst hb
  have hd := drainClose_no_nil buf hn
  refine ⟨?_, rfl, ?_⟩
  · simp [channelPool.Close, hd]
  · intro c
    simp [channelPool.Close, hd, count_reduceOption]

/-- Witness for C3: closing the pool holding `cA` then `cB` clears both
references, closes exactly `cA` and `cB` in order without panicking,
leaves `Len` at 0, and closes `cA` exactly once. -/
theorem Close_drains_and_clears_witness :
    channelPool.Close sTwoW =
      (⟨Option.none, 5, Option.none, 0⟩, [cA, cB], false) ∧
    channelPool.Len (channelPool.Close sTwoW).1 = 0 ∧
    (channelPool.Close sTwoW).2.1.count cA = 1 := by
  have h := Close_drains_and_clears sTwoW
    [Option.some cA, Option.some cB] rfl (by decide)
  exact ⟨h.1, h.2.1, (h.2.2 cA).trans (by decide)⟩

/-- C1: `Get()` performs a total, non-blocking case analysis: a nil channel
(shut-down store) yields `ErrClosed`; a nil value drained from the buffer
also yields `ErrClosed`; a non-empty buffer pops its front connection and
returns it wrapped in a fresh decorator; an empty buffer invokes the
factory exactly once (the invocation counter advances by one), propagating
its error unchanged on failure and wrapping its connection on success. -/
theorem Get_total_case_analysis (s : PoolState) :
    (s.rconns = Option.none →
      channelPool.Get s = (GetRes.err Err.closed, s)) ∧
    (∀ rest, s.rconns = Option.some (Option.none :: rest) →
      channelPool.Get s =
        (GetRes.err Err.closed, { s with rconns := Option.some rest })) ∧
    (∀ c rest, s.rconns = Option.some (Option.some c :: rest) →
      channelPool.Get s =
        (GetRes.ok (channelPool.wrapRconn (Option.some c)),
         { s with rconns := Option.some rest })) ∧
    (∀ f, s.rconns = Option.some [] → s.factory = Option.some f →
      channelPool.Get s =
        (match (f s.calls).2 with
         | Option.some e => GetRes.err e
         | Option.none => GetRes.ok (channelPool.wrapRconn (f s.calls).1),
         { s with calls := s.calls + 1 })) := by
  obtain ⟨rc, cap, fac, calls⟩ := s
  refine ⟨?_, ?_, ?_, ?_⟩
  · rintro rfl; rfl
  · rintro rest rfl; rfl
  · rintro c rest rfl; rfl
  · rintro f rfl h
    simp only at h
    subst h
    show channelPool.Get ⟨Option.some [], cap, Option.some f, calls⟩ = _
    cases h2 : (f calls).2 <;>
      simp [channelPool.Get, h2]

/-- Witness for C1: on an open pool with an empty buffer and the
always-succeeding factory, `Get` invokes the factory once and returns its
connection wrapped; on a pool whose buffer fronts `cA`, `Get` pops and
wraps `cA`. -/
theorem Get_total_case_analysis_witness :
    channelPool.Get sEmptyW =
      (GetRes.ok (channelPool.wrapRconn (Option.some ⟨100, Option.none⟩)),
       ⟨Option.some [], 2, Option.some fOk, 1⟩) ∧
    channelPool.Get sTwoW =
      (GetRes.ok (channelPool.wrapRconn (Option.some cA)),
       ⟨Option.some [Option.some cB], 5, Option.some fOk, 0⟩) :=
  ⟨(Get_total_case_analysis sEmptyW).2.2.2 fOk rfl rfl,
   (Get_total_case_analysis sTwoW).2.2.1 cA [Option.some cB] rfl⟩

/-- C2: `put(rconn)` trichotomy: a nil connection is rejected with the
nil-rconn error and the state is unchanged; a non-nil connection on a
shut-down store (nil channel) has its underlying `Close` invoked and that
result returned; a non-nil connection on an open store whose buffer is at
(or beyond) capacity likewise; otherwise the connection is appended to the
buffer and nil is returned. -/
theorem put_trichotomy (s : PoolState) (rconn : RpcAble) :
    (rconn = Option.none →
      channelPool.put s rconn = (Option.some Err.nilRconn, s, [])) ∧
    (∀ c, rconn = Option.some c → s.rconns = Option.none →
      channelPool.put s rconn = (c.closeErr, s, [c])) ∧
    (∀ c buf, rconn = Option.some c → s.rconns = Option.some buf →
      s.cap ≤ buf.length →
      channelPool.put s rconn = (c.closeErr, s, [c])) ∧
    (∀ c buf, rconn = Option.some c → s.rconns = Option.some buf →
      buf.length < s.cap →
      channelPool.put s rconn =
        (Option.none,
         { s with rconns := Option.some (buf ++ [Option.some c]) }, [])) := by
  obtain ⟨rc, cap, fac, calls⟩ := s
  refine ⟨?_, ?_, ?_, ?_⟩
  · rintro rfl; rfl
  · rintro c rfl h
    simp only at h
    subst h; rfl
  · rintro c buf rfl h hcap
    simp only at h hcap
    subst h
    simp [channelPool.put, Nat.not_lt.mpr hcap]
  · rintro c buf rfl h hlt
    simp only at h hlt
    subst h
    simp [channelPool.put, hlt]

/-- Witness for C2: putting `cB` into a full capacity-1 pool invokes its
underlying `Close` (error `custom 7`) and leaves the state unchanged;
putting `cA` into an empty capacity-1 pool inserts it. -/
theorem put_trichotomy_witness :
    channelPool.put sFullW (Option.some cB) =
      (Option.some (Err.custom 7), sFullW, [cB]) ∧
    channelPool.put sCapOneW (Option.some cA) =
      (Option.none,
       ⟨Option.some [Option.some cA], 1, Option.some fOk, 0⟩, []) :=
  ⟨(put_trichotomy sFullW (Option.some cB)).2.2.1 cB [Option.some cA] rfl rfl
      (by decide),
   (put_trichotomy sCapOneW (Option.some cA)).2.2.2 cA [] rfl rfl (by decide)⟩

/-- C4: `Close()` on the store is idempotent: a second `Close` after any
first one invokes no connection's underlying `Close` (empty log), does not
panic, and leaves the already-nil buffer and factory state unchanged. -/
theorem Close_idempotent (s : PoolState) :
    channelPool.Close (channelPool.Close s).1 =
      ((channelPool.Close s).1, [], false) := by
  obtain ⟨rc, cap, fac, calls⟩ := s
  cases rc <;> rfl

/-- C5: the decorator's `Close()` dispatch: marked unusable with a wrapped
connection invokes the real underlying `Close`; marked unusable with no
wrapped connection returns nil doing nothing; not marked unusable
delegates to the store's `put`, returning its result verbatim. -/
theorem PoolRconn_Close_dispatch (p : PoolRconn) (s : PoolState) :
    (∀ c, p.unusable = true → p.rpcAble = Option.some c →
      PoolRconn.Close p s = (c.closeErr, s, [c])) ∧
    (p.unusable = true → p.rpcAble = Option.none →
      PoolRconn.Close p s = (Option.none, s, [])) ∧
    (p.unusable = false →
      PoolRconn.Close p s = channelPool.put s p.rpcAble) := by
  obtain ⟨rc, u⟩ := p
  refine ⟨?_, ?_, ?_⟩
  · rintro c rfl h
    simp only at h
    subst h; rfl
  · rintro rfl h
    simp only at h
    subst h; rfl
  · rintro rfl
    rfl

/-- Witness for C5: a non-unusable handle's `Close` equals the store's
`put`; an unusable handle wrapping `cB` really closes it (error
`custom 7`), not touching the pool. -/
theorem PoolRconn_Close_dispatch_witness :
    PoolRconn.Close (channelPool.wrapRconn (Option.some cA)) sEmptyW =
      channelPool.put sEmptyW (Option.some cA) ∧
    PoolRconn.Close ⟨Option.some cB, true⟩ sEmptyW =
      (Option.some (Err.custom 7), sEmptyW, [cB]) :=
  ⟨(PoolRconn_Close_dispatch (channelPool.wrapRconn (Option.some cA))
      sEmptyW).2.2 rfl,
   (PoolRconn_Close_dispatch ⟨Option.some cB, true⟩ sEmptyW).1 cB rfl rfl⟩

/-- C6: for a pool constructed with maximum capacity `maxCap`, after any
sequence of `Get`, `put`/handle-`Close` and `Close` operations, `Len`
never exceeds `maxCap`; and a `put` attempted when the buffer already
holds exactly its capacity invokes the connection's underlying `Close`
instead of inserting. -/
theorem Len_le_maxCap (initialCap maxCap : Int) (f : Factory)
    (s0 : PoolState) (log : List Conn) (pn : Bool)
    (h : NewChannelPool initialCap maxCap f = (Except.ok s0, log, pn))
    (ops : List Op) :
    (channelPool.Len (runOps s0 ops) : Int) ≤ maxCap ∧
    (∀ (s : PoolState) (c : Conn) (buf : List RpcAble),
      s.rconns = Option.some buf → buf.length = s.cap →
      channelPool.put s (Option.some c) = (c.closeErr, s, [c])) := by
  constructor
  · obtain ⟨⟨hi0, hm0, him⟩, buf, i, hfp, hs0⟩ :=
      NewChannelPool_ok_inv initialCap maxCap f s0 log pn h
    have hlen := fillPool_ok_length f initialCap.toNat 0 [] buf i hfp
    simp only [List.length_nil] at hlen
    have hinv0 : lenInv s0 := by
      intro b hb
      rw [hs0] at hb ⊢
      simp only at hb ⊢
      have hbb : buf = b := by
        simpa using hb
      subst hbb
      omega
    have hinv := lenInv_runOps ops s0 hinv0
    have hcap : (runOps s0 ops).cap = s0.cap := runOps_cap ops s0
    rcases hrc : (runOps s0 ops).rconns with _ | b
    · simp only [channelPool.Len, hrc]
      omega
    · have hble := hinv b hrc
      simp only [channelPool.Len, hrc]
      rw [hcap, hs0] at hble
      simp only at hble
      omega
  · intro s c buf hb hlen
    obtain ⟨rc, cap, fac, calls⟩ := s
    simp only at hb hlen
    subst hb
    simp [channelPool.put, hlen]

/-- Witness for C6: starting from `NewChannelPool(1, 2, fOk)` and
returning two further connections, the second return finds the buffer at
capacity, so `Len` stays at 2 ≤ 2. -/
theorem Len_le_maxCap_witness :
    (channelPool.Len
      (runOps
        ⟨Option.some [Option.some ⟨100, Option.none⟩], 2, Option.some fOk, 1⟩
        [Op.put (Option.some cA), Op.put (Option.some cB)]) : Int) ≤ 2 :=
  (Len_le_maxCap 1 2 fOk
    ⟨Option.some [Option.some ⟨100, Option.none⟩], 2, Option.some fOk, 1⟩
    [] false rfl [Op.put (Option.some cA), Op.put (Option.some cB)]).1

/-- C8: construction with `initialCap < 0`, `maxCap ≤ 0`, or
`initialCap > maxCap` fails with the invalid-configuration error; the
output is the same for every factory (so the factory is never invoked),
with an empty close log and no panic (no connections created, no partial
pool left behind). -/
theorem NewChannelPool_invalid (initialCap maxCap : Int) (f : Factory)
    (h : initialCap < 0 ∨ maxCap ≤ 0 ∨ initialCap > maxCap) :
    NewChannelPool initialCap maxCap f =
      (Except.error Err.invalidCapacity, [], false) := by
  unfold NewChannelPool
  rw [if_pos h]

/-- Witness for C8: `NewChannelPool(-1, 5, fOk)` fails with the
invalid-configuration error, closing nothing. -/
theorem NewChannelPool_invalid_witness :
    NewChannelPool (-1) 5 fOk =
      (Except.error Err.invalidCapacity, [], false) :=
  NewChannelPool_invalid (-1) 5 fOk (Or.inl (by decide))

/-- Counterexample to C7 as stated: on the open capacity-1 pool with an
empty buffer and a succeeding factory, `Len` is 0 before `Get`; `Get`
succeeds via the factory, and `Close` on the returned (not unusable)
handle inserts the freshly minted connection, so `Len` afterwards is 1,
not the 0 from before the `Get`. -/
theorem get_then_close_len_cex :
    channelPool.Len sCapOneW = 0 ∧
    (channelPool.Get sCapOneW).1 =
      GetRes.ok (channelPool.wrapRconn (Option.some ⟨100, Option.none⟩)) ∧
    (channelPool.wrapRconn (Option.some ⟨100, Option.none⟩)).unusable
      = false ∧
    channelPool.Len
        (PoolRconn.Close
          (channelPool.wrapRconn (Option.some ⟨100, Option.none⟩))
          (channelPool.Get sCapOneW).2).2.1
      ≠ channelPool.Len sCapOneW :=
  ⟨rfl, rfl, rfl, by decide⟩

/-- C7 amended: `Get()` followed by `Close()` on the returned handle
(not marked unusable) leaves `Len` unchanged when the idle buffer was
non-empty with a non-nil front and within capacity (reuse then re-insert);
when the idle buffer was empty and the factory mints a connection, the
same sequence instead increases `Len` by exactly one (the new connection
joins the buffer). -/
theorem get_then_close_len (s : PoolState) :
    (∀ c rest, s.rconns = Option.some (Option.some c :: rest) →
      rest.length < s.cap →
      (channelPool.Get s).1 =
        GetRes.ok (channelPool.wrapRconn (Option.some c)) ∧
      channelPool.Len
          (PoolRconn.Close (channelPool.wrapRconn (Option.some c))
            (channelPool.Get s).2).2.1 = channelPool.Len s) ∧
    (∀ f c, s.rconns = Option.some [] → s.factory = Option.some f →
      f s.calls = (Option.some c, Option.none) → 0 < s.cap →
      (channelPool.Get s).1 =
        GetRes.ok (channelPool.wrapRconn (Option.some c)) ∧
      channelPool.Len
          (PoolRconn.Close (channelPool.wrapRconn (Option.some c))
            (channelPool.Get s).2).2.1 = channelPool.Len s + 1) := by
  obtain ⟨rc, cap, fac, calls⟩ := s
  constructor
  · rintro c rest rfl hlt
    simp only at hlt
    constructor
    · rfl
    · simp [channelPool.Get, PoolRconn.Close, channelPool.wrapRconn,
        channelPool.put, channelPool.Len, hlt]
  · rintro f c rfl hfac hf hpos
    simp only at hfac hpos
    subst hfac
    constructor
    · simp [channelPool.Get, hf, channelPool.wrapRconn]
    · simp [channelPool.Get, PoolRconn.Close, channelPool.wrapRconn,
        channelPool.put, channelPool.Len, hf, hpos]

/-- Witness for C7 (amended): on the capacity-1 pool holding exactly
`cA`, `Get` pops `cA` and `Close` on the returned handle re-inserts it,
leaving `Len` at 1. -/
theorem get_then_close_len_witness :
    (channelPool.Get sFullW).1 =
      GetRes.ok (channelPool.wrapRconn (Option.some cA)) ∧
    channelPool.Len
        (PoolRconn.Close (channelPool.wrapRconn (Option.some cA))
          (channelPool.Get sFullW).2).2.1 = channelPool.Len sFullW :=
  (get_then_close_len sFullW).1 cA [] rfl (by decide)

/-- C9: the decorator's `Close` is not idempotent and `put` performs no
duplicate check: two `Close` calls on the same never-unusable handle call
`put` twice with the same connection, and with at least two free slots
both inserts succeed, putting the connection into the buffer twice and
raising `Len` by 2 (its multiplicity in the buffer rises by 2). -/
theorem handle_Close_not_idempotent (s : PoolState) (c : Conn)
    (buf : List RpcAble) (hb : s.rconns = Option.some buf)
    (hcap : buf.length + 2 ≤ s.cap) :
    PoolRconn.Close (channelPool.wrapRconn (Option.some c)) s =
      (Option.none,
       { s with rconns := Option.some (buf ++ [Option.some c]) }, []) ∧
    PoolRconn.Close (channelPool.wrapRconn (Option.some c))
        { s with rconns := Option.some (buf ++ [Option.some c]) } =
      (Option.none,
       { s with rconns :=
           Option.some (buf ++ [Option.some c] ++ [Option.some c]) }, []) ∧
    channelPool.Len
        { s with rconns :=
            Option.some (buf ++ [Option.some c] ++ [Option.some c]) } =
      channelPool.Len s + 2 ∧
    (buf ++ [Option.some c] ++ [Option.some c]).count (Option.some c) =
      buf.count (Option.some c) + 2 := by
  obtain ⟨rc, cap, fac, calls⟩ := s
  simp only at hb hcap
  subst hb
  refine ⟨?_, ?_, ?_, ?_⟩
  · have hlt : buf.length < cap := by omega
    simp [PoolRconn.Close, channelPool.wrapRconn, channelPool.put, hlt]
  · have hlt : buf.length + 1 < cap := by omega
    simp [PoolRconn.Close, channelPool.wrapRconn, channelPool.put, hlt,
      List.append_assoc]
  · simp [channelPool.Len]
  · simp [List.count_append]

/-- Witness for C9: on the open capacity-2 pool with an empty buffer,
closing the same handle around `cA` twice inserts `cA` twice and takes
`Len` from 0 to 2. -/
theorem handle_Close_not_idempotent_witness :
    PoolRconn.Close (channelPool.wrapRconn (Option.some cA)) sEmptyW =
      (Option.none,
       ⟨Option.some [Option.some cA], 2, Option.some fOk, 0⟩, []) ∧
    PoolRconn.Close (channelPool.wrapRconn (Option.some cA))
        ⟨Option.some [Option.some cA], 2, Option.some fOk, 0⟩ =
      (Option.none,
       ⟨Option.some [Option.some cA, Option.some cA], 2,
        Option.some fOk, 0⟩, []) ∧
    channelPool.Len
        (⟨Option.some [Option.some cA, Option.some cA], 2,
          Option.some fOk, 0⟩ : PoolState) =
      channelPool.Len sEmptyW + 2 ∧
    ([Option.some cA, Option.some cA] : List RpcAble).count (Option.some cA)
      = ([] : List RpcAble).count (Option.some cA) + 2 :=
  handle_Close_not_idempotent sEmptyW cA [] rfl (by decide)

theorem noNilInv_runOp (s : PoolState) (op : Op) (h : noNilInv s) :
    noNilInv (runOp s op) := by
  obtain ⟨rc, cap, fac, calls⟩ := s
  cases op with
  | get =>
    cases rc with
    | none => exact h
    | some buf =>
      cases buf with
      | nil =>
        cases fac with
        | none => exact h
        | some f =>
          intro b hb
          simp [runOp, channelPool.Get] at hb
          subst hb
          simp
      | cons a rest =>
        intro b hb
        simp [runOp, channelPool.Get] at hb
        subst hb
        intro hmem
        exact h (a :: rest) rfl (List.mem_cons_of_mem _ hmem)
  | put r =>
    cases r with
    | none => exact h
    | some c =>
      cases rc with
      | none => exact h
      | some buf =>
        by_cases hlt : buf.length < cap
        · intro b hb
          simp [runOp, channelPool.put, hlt] at hb
          subst hb
          simp [List.mem_append, h buf rfl]
        · intro b hb
          simp [runOp, channelPool.put, hlt] at hb
          subst hb
          exact h buf rfl
  | close =>
    cases rc <;> intro b hb <;> simp [runOp, channelPool.Close] at hb

theorem noNilInv_runOps (ops : List Op) :
    ∀ s, noNilInv s → noNilInv (runOps s ops) := by
  induction ops with
  | nil => exact fun s h => h
  | cons op rest ih => exact fun s h => ih (runOp s op) (noNilInv_runOp s op h)

theorem fillPool_ok_no_nil (f : Factory) (hf : goodFactory f) :
    ∀ (n i : Nat) (buf buf' : List RpcAble) (i' : Nat),
      Option.none ∉ buf →
      fillPool f n i buf = Except.ok (buf', i') →
      Option.none ∉ buf' := by
  intro n
  induction n with
  | zero =>
    intro i buf buf' i' hbuf h
    simp [fillPool] at h
    rw [← h.1]
    exact hbuf
  | succ n ih =>
    intro i buf buf' i' hbuf h
    rcases h2 : (f i).2 with _ | e
    · simp only [fillPool, h2] at h
      refine ih (i + 1) (buf ++ [(f i).1]) buf' i' ?_ h
      intro hmem
      rcases List.mem_append.mp hmem with hm | hm
      · exact hbuf hm
      · simp only [List.mem_singleton] at hm
        exact hf i h2 hm.symm
    · simp only [fillPool, h2] at h
      exact Except.noConfusion h

/-- C10: with a factory that never returns a nil connection together with
a nil error, the open pool's idle buffer never holds a nil entry after any
sequence of operations following construction: construction inserts only
non-nil factory results, `put` rejects nil before inserting, and `Get`
never inserts — justifying `Get` reading a drained nil as a closed
pool. -/
theorem open_buffer_no_nil (initialCap maxCap : Int) (f : Factory)
    (hf : goodFactory f) (s0 : PoolState) (log : List Conn) (pn : Bool)
    (h : NewChannelPool initialCap maxCap f = (Except.ok s0, log, pn))
    (ops : List Op) :
    noNilInv (runOps s0 ops) := by
  obtain ⟨-, buf, i, hfp, hs0⟩ :=
    NewChannelPool_ok_inv initialCap maxCap f s0 log pn h
  have hbuf : Option.none ∉ buf :=
    fillPool_ok_no_nil f hf initialCap.toNat 0 [] buf i (by simp) hfp
  have h0 : noNilInv s0 := by
    intro b hb
    rw [hs0] at hb
    simp only [Option.some.injEq] at hb
    subst hb
    exact hbuf
  exact noNilInv_runOps ops s0 h0

/-- Witness for C10: from `NewChannelPool(1, 2, fOk)`, after returning
`cA` and then one `Get`, the buffer is exactly `[cA]`, which holds no nil
entry. -/
theorem open_buffer_no_nil_witness :
    Option.none ∉ ([Option.some cA] : List RpcAble) :=
  open_buffer_no_nil 1 2 fOk (fun n _ => by simp [fOk])
    ⟨Option.some [Option.some ⟨100, Option.none⟩], 2, Option.some fOk, 1⟩
    [] false rfl [Op.put (Option.some cA), Op.get]
    [Option.some cA] rfl

end Pool
